import Mathlib

/-!
Verification of the moderation core of `src/modbot.py` (telegram-mod-bot).

Texts are modelled as `List Char`.  Python regular-expression searches are
embedded as decidable substring matchers that are existence-equivalent to the
source patterns; each definition's doc comment names the source construct it
embeds.  Character classes follow the ASCII reading of the Python classes
(`\d`, `\s`, `\w`), which covers every literal appearing in the source
patterns.
-/

namespace Modbot

/-- Python `\s` (ASCII range): space, tab, newline, carriage return,
vertical tab, form feed. -/
def isSpaceChar (c : Char) : Bool :=
  c = ' ' || c = '\t' || c = '\n' || c = '\r' || c = '\x0b' || c = '\x0c'

/-- The separator class `[\s\-\.]` used inside `PHONE_RE` (line 58). -/
def sepChar (c : Char) : Bool := isSpaceChar c || c = '-' || c = '.'

/-- Python `\w` (ASCII): `[A-Za-z0-9_]`, used by the `\b` boundaries in
`SELL_KEYWORDS` and `PAYMENT_RE`. -/
def isWordChar (c : Char) : Bool := c.isAlpha || c.isDigit || c = '_'

/-- The invite-code class `[A-Za-z0-9_-]` of `TELEGRAM_INVITE_RE` (line 60). -/
def inviteChar (c : Char) : Bool := c.isAlpha || c.isDigit || c = '_' || c = '-'

/-- The currency alternatives `(\£|\$|€)` of `PRICE_WEIGHT_RE` (line 61). -/
def currencyChar (c : Char) : Bool := c = '£' || c = '$' || c = '€'

/-- ASCII `str.lower()` on one character (line 72 lowercases the text before
all pattern searches; every pattern literal in the source is ASCII). -/
def asciiLower (c : Char) : Char :=
  if 'A' ≤ c && c ≤ 'Z' then Char.ofNat (c.toNat + 32) else c

/-- `text.lower()` (line 72). -/
def lowerStr (l : List Char) : List Char := l.map asciiLower

/-- Consume the exact literal `w` from the front of `l`; `some r` is the rest. -/
def dropLit : List Char → List Char → Option (List Char)
  | [], l => some l
  | _ :: _, [] => none
  | c :: w, x :: l => if x = c then dropLit w l else none

/-- Consume exactly `k` digits (`\d{k}`) from the front of `l`. -/
def takeDigits : Nat → List Char → Option (List Char)
  | 0, l => some l
  | _ + 1, [] => none
  | n + 1, c :: l => if c.isDigit then takeDigits n l else none

/-- A regex `search`: does `p` accept some suffix (i.e. match at some
position, including the empty position at the end)? -/
def searchPos (p : List Char → Bool) : List Char → Bool
  | [] => p []
  | c :: l => p (c :: l) || searchPos p l

/-- `[\s\-\.]?` read greedily; its class is disjoint from `\d`, so greedy
consumption is existence-equivalent to the optional group. -/
def optSep : List Char → List Char
  | [] => []
  | c :: l => if sepChar c then l else c :: l

/-- The mandatory tail `\d{a}[\s\-\.]?\d{3,4}` of `PHONE_RE` starting at the
head of `l` (for existence, `\d{3,4}` on the right may be read as `\d{3}`,
since any 4-digit hit contains a 3-digit hit at the same position). -/
def phoneCoreFrom (a : Nat) (l : List Char) : Bool :=
  match takeDigits a l with
  | some r => (takeDigits 3 (optSep r)).isSome
  | none => false

/-- `PHONE_RE` matching at the head of `l`.  Both leading groups
`(?:\+?\d{1,3}[\s\-\.]?)?` and `(?:\(?\d{2,4}\)?[\s\-\.]?)?` are optional, so
`PHONE_RE` has a match somewhere in a string iff its mandatory tail
`\d{3,4}[\s\-\.]?\d{3,4}` occurs somewhere. -/
def phoneHere (l : List Char) : Bool := phoneCoreFrom 3 l || phoneCoreFrom 4 l

/-- `PHONE_RE.search` (line 73). -/
def phoneFires (l : List Char) : Bool := searchPos phoneHere l

/-- The literal alternatives of `WHATSAPP_LINK_RE` (line 59), lowercase since
the pattern is case-insensitive and the input is lowercased. -/
def waLits : List (List Char) :=
  ["chat.whatsapp.com".toList, "wa.me".toList, "whatsapp.".toList]

/-- Literal `w` followed by `[^\s]+` (at least one non-whitespace char). -/
def nonSpaceAfter (w l : List Char) : Bool :=
  match dropLit w l with
  | some (c :: _) => !isSpaceChar c
  | _ => false

/-- `WHATSAPP_LINK_RE` at the head of `l`; the scheme group `(?:https?://)?`
is optional, so searching for the mandatory part is existence-equivalent. -/
def waHere (l : List Char) : Bool := waLits.any (fun w => nonSpaceAfter w l)

/-- `WHATSAPP_LINK_RE.search` (line 74). -/
def waFires (l : List Char) : Bool := searchPos waHere l

/-- The mandatory literal of `TELEGRAM_INVITE_RE` (line 60). -/
def tgLit : List Char := "t.me/joinchat/".toList

/-- `TELEGRAM_INVITE_RE` at the head of `l`: the literal followed by at least
one `[A-Za-z0-9_-]` char (optional scheme dropped as above). -/
def tgHere (l : List Char) : Bool :=
  match dropLit tgLit l with
  | some (c :: _) => inviteChar c
  | _ => false

/-- `TELEGRAM_INVITE_RE.search` (line 75). -/
def tgFires (l : List Char) : Bool := searchPos tgHere l

/-- `\d` at the head of `rest`, used by `priceTail`. -/
def digitHead : List Char → Bool
  | [] => false
  | c :: _ => c.isDigit

/-- After a currency symbol: `\s?\d` — everything in `PRICE_WEIGHT_RE` after
`\d{1,4}` is optional, so one digit (optionally after one whitespace) is the
mandatory remainder. -/
def priceTail : List Char → Bool
  | [] => false
  | c :: rest => c.isDigit || (isSpaceChar c && digitHead rest)

/-- `PRICE_WEIGHT_RE` (line 61) at the head of `l`. -/
def priceHere : List Char → Bool
  | [] => false
  | c :: rest => currencyChar c && priceTail rest

/-- `PRICE_WEIGHT_RE.search` (line 76). -/
def priceFires (l : List Char) : Bool := searchPos priceHere l

/-- Right-hand `\b` after a keyword ending in a word character: end of string
or a non-word character. -/
def rightBound : List Char → Bool
  | [] => true
  | c :: _ => !isWordChar c

/-- Keyword `w` at the head of `l` with its trailing `\b`. -/
def litWordHere (w l : List Char) : Bool :=
  match dropLit w l with
  | some r => rightBound r
  | none => false

/-- Left-hand `\b` before a keyword starting with a word character: start of
string (no previous character) or a non-word previous character. -/
def leftBound : Option Char → Bool
  | none => true
  | some c => !isWordChar c

/-- Search for `\b(w₁|w₂|…)\b` where every alternative starts and ends with a
word character (true of all `SELL_KEYWORDS` / `PAYMENT_RE` alternatives);
`prev` is the character before the current position. -/
def searchWords (lits : List (List Char)) : Option Char → List Char → Bool
  | _, [] => false
  | prev, c :: l =>
    (leftBound prev && lits.any (fun w => litWordHere w (c :: l))) || searchWords lits (some c) l

/-- A nonempty literal whose first character is not whitespace — true of
every keyword literal in the source patterns; used by the lemmas below. -/
def headNonSpace : List Char → Bool
  | [] => false
  | c :: _ => !isSpaceChar c

/-- The expanded alternatives of `SELL_KEYWORDS` (lines 62-66):
`sell(?:ing|s)?` expands to three literals and `got (?:…)` distributes over
its eight drugs. -/
def sellLits : List (List Char) :=
  ["selling", "sells", "sell", "vendor", "supply", "bulk", "kilo", "kg",
   "g for", "grams", "plug", "connect", "dm for price", "price dm", "pm price",
   "we have stock", "got weed", "got mdma", "got cocaine", "got coke",
   "got pills", "got xanax", "got ketamine", "got m-cat"].map String.toList

/-- `SELL_KEYWORDS.search` (line 77). -/
def sellFires (l : List Char) : Bool := searchWords sellLits none l

/-- The alternatives of `PAYMENT_RE` (line 67). -/
def payLits : List (List Char) :=
  ["paypal", "venmo", "cashapp", "bank transfer", "btc", "bitcoin", "zelle",
   "revolut"].map String.toList

/-- `PAYMENT_RE.search` (line 78). -/
def payFires (l : List Char) : Bool := searchWords payLits none l

/-!
Backtracking parser for the whole-string bonus
`re.fullmatch(r"\s*" + PHONE_RE.pattern + r"\s*", t)` (line 79).  Here the
optional groups of `PHONE_RE` matter (they must help consume the whole
string), so the pattern is embedded with full nondeterminism: a parser maps
an input to the list of all possible remainders.
-/

/-- Parser for a single literal character. -/
def pExact (c : Char) : List Char → List (List Char)
  | [] => []
  | x :: l => if x = c then [l] else []

/-- `f?`: either consume nothing or run `f`. -/
def pOpt (f : List Char → List (List Char)) (l : List Char) : List (List Char) :=
  l :: f l

/-- Sequencing of parsers. -/
def pSeq (f g : List Char → List (List Char)) (l : List Char) : List (List Char) :=
  (f l).flatMap g

/-- `\d{k}` as a parser. -/
def pDigits (k : Nat) (l : List Char) : List (List Char) := (takeDigits k l).toList

/-- `\d{lo,hi}` as a parser. -/
def pDigitsRange (lo hi : Nat) (l : List Char) : List (List Char) :=
  (List.range' lo (hi + 1 - lo)).flatMap (fun k => pDigits k l)

/-- `[\s\-\.]` as a parser. -/
def pSepChar : List Char → List (List Char)
  | [] => []
  | c :: l => if sepChar c then [l] else []

/-- `\s*` as a parser: all remainders after consuming 0 or more leading
whitespace characters. -/
def pWs : List Char → List (List Char)
  | [] => [[]]
  | c :: l => if isSpaceChar c then (c :: l) :: pWs l else [c :: l]

/-- `(?:\+?\d{1,3}[\s\-\.]?)?` — first optional group of `PHONE_RE`. -/
def pPhoneG1 : List Char → List (List Char) :=
  pOpt (pSeq (pOpt (pExact '+')) (pSeq (pDigitsRange 1 3) (pOpt pSepChar)))

/-- `(?:\(?\d{2,4}\)?[\s\-\.]?)?` — second optional group of `PHONE_RE`. -/
def pPhoneG2 : List Char → List (List Char) :=
  pOpt (pSeq (pOpt (pExact '(')) (pSeq (pDigitsRange 2 4)
    (pSeq (pOpt (pExact ')')) (pOpt pSepChar))))

/-- `\d{3,4}[\s\-\.]?\d{3,4}` — mandatory tail of `PHONE_RE`. -/
def pPhoneCore : List Char → List (List Char) :=
  pSeq (pDigitsRange 3 4) (pSeq (pOpt pSepChar) (pDigitsRange 3 4))

/-- The whole `PHONE_RE` pattern as a parser. -/
def pPhone : List Char → List (List Char) :=
  pSeq pPhoneG1 (pSeq pPhoneG2 pPhoneCore)

/-- `re.fullmatch(r"\s*" + PHONE_RE.pattern + r"\s*", t)` (line 79): some
remainder of the whole parse is empty. -/
def fullPhone (l : List Char) : Bool :=
  ((pSeq pWs (pSeq pPhone pWs)) l).any List.isEmpty

/-- `ad_score` (lines 69-80), translated clause by clause: lowercase the
text, then add each pattern's weight if it matches anywhere, plus the
whole-string phone bonus. -/
def ad_score (text : List Char) : Nat :=
  let t := lowerStr text
  let s : Nat := 0
  let s := if phoneFires t then s + 3 else s
  let s := if waFires t then s + 4 else s
  let s := if tgFires t then s + 3 else s
  let s := if priceFires t then s + 3 else s
  let s := if sellFires t then s + 3 else s
  let s := if payFires t then s + 2 else s
  let s := if fullPhone t then s + 2 else s
  s

/-- The six weighted signal detectors of the classifier (spec §4.1). -/
inductive Signal
  | phone
  | waLink
  | tgInvite
  | priceWeight
  | sellKw
  | payment
deriving DecidableEq, Repr

/-- The fixed weight each signal contributes in `ad_score`. -/
def weight : Signal → Nat
  | .phone => 3
  | .waLink => 4
  | .tgInvite => 3
  | .priceWeight => 3
  | .sellKw => 3
  | .payment => 2

/-- Which detector a signal names, on an already-lowercased text. -/
def detFires : Signal → List Char → Bool
  | .phone, t => phoneFires t
  | .waLink, t => waFires t
  | .tgInvite, t => tgFires t
  | .priceWeight, t => priceFires t
  | .sellKw, t => sellFires t
  | .payment, t => payFires t

/-- Does signal `d` match message text `text` (lowercased first, exactly as
`ad_score` does)? -/
def fires (d : Signal) (text : List Char) : Bool := detFires d (lowerStr text)

/-- The matched-signal set of a classification, in detector order. -/
def matchedSignals (text : List Char) : List Signal :=
  let t := lowerStr text
  (if phoneFires t then [Signal.phone] else []) ++
  (if waFires t then [Signal.waLink] else []) ++
  (if tgFires t then [Signal.tgInvite] else []) ++
  (if priceFires t then [Signal.priceWeight] else []) ++
  (if sellFires t then [Signal.sellKw] else []) ++
  (if payFires t then [Signal.payment] else [])

/-- `ClassificationResult` (spec §3): score plus matched signal set. -/
structure ClassificationResult where
  score : Nat
  matched : List Signal
deriving DecidableEq, Repr

/-- The classifier contract `classify(text)` of spec §4.1: `ad_score`
together with the set of signals that matched. -/
def classify (text : List Char) : ClassificationResult :=
  ⟨ad_score text, matchedSignals text⟩

/-!
Policy constants (lines 36-45) and per-user mutable state (lines 52-55).
Timestamps are integers counting seconds (the source compares
`datetime.utcnow()` values whose differences are taken in seconds).
-/

def FLOOD_LIMIT : Nat := 5

def FLOOD_WINDOW : Int := 8

def WARN_BEFORE_MUTE : Nat := 2

def LINK_FILTER : Bool := true

def ADMIN_BYPASS : Bool := true

/-- `BANNED_WORDS` (line 41). -/
def BANNED_WORDS : List (List Char) := ["nastyword1".toList, "nastyword2".toList]

/-- `timedelta(days=3)` (line 308) in seconds — the restriction duration of
the dealer flow. -/
def RESTRICTION_DURATION : Int := 3 * 24 * 60 * 60

/-- Point-update of a map keyed by user id.  Python's `defaultdict(int)` is
modelled as a total map into `Nat` (a missing key reads as `0`, and
`pop`ping a key is setting it back to `0`); a plain `dict` whose `.get`
returns `None` on a missing key is a total map into `Option`. -/
def updMap {β : Type} (f : Nat → β) (k : Nat) (v : β) : Nat → β :=
  fun x => if x = k then v else f x

/-- The state owned by the offense-escalation flow: `user_offenses`
(line 54, `defaultdict(int)`) and `restriction_until` (line 55, `dict`). -/
structure OffenseState where
  user_offenses : Nat → Nat
  restriction_until : Nat → Option Int

/-- The empty tables the module starts with (lines 54-55). -/
def cleanOffenses : OffenseState := ⟨fun _ => 0, fun _ => none⟩

/-- The outcome of one qualifying violation (spec §4.4 `on_violation`);
payloads carry the restriction end that the corresponding source branch
uses in its messages and admin log (`heldDuringRestriction none` is the
branch that logs `'unknown'`, line 383). -/
inductive Outcome
  | firstOffense (untilT : Int)
  | heldDuringRestriction (untilT : Option Int)
  | kickDue (untilT : Int)
deriving DecidableEq, Repr

/-- The escalation state transition of the dealer branch (lines 303-387):
increment `user_offenses[uid]`; on the first offense record
`restriction_until[uid] = now + 3 days` and report `firstOffense`; otherwise
look the restriction end up with `dict.get` — if it exists and has passed,
report `kickDue` and pop both entries (lines 364-365), else report
`heldDuringRestriction` (a missing entry is falsy in `if until_dt and
now >= until_dt`, so it also lands in the held branch). -/
def on_violation (st : OffenseState) (uid : Nat) (now : Int) : Outcome × OffenseState :=
  let cnt := st.user_offenses uid + 1
  let st1 : OffenseState := ⟨updMap st.user_offenses uid cnt, st.restriction_until⟩
  if cnt = 1 then
    let untilT := now + RESTRICTION_DURATION
    (Outcome.firstOffense untilT,
      ⟨st1.user_offenses, updMap st1.restriction_until uid (some untilT)⟩)
  else
    match st1.restriction_until uid with
    | some u =>
      if u ≤ now then
        (Outcome.kickDue u,
          ⟨updMap st1.user_offenses uid 0, updMap st1.restriction_until uid none⟩)
      else
        (Outcome.heldDuringRestriction (some u), st1)
    | none => (Outcome.heldDuringRestriction none, st1)

/-- The eviction loop of `record_message` (lines 94-95): pop entries from
the front while they are strictly older than `FLOOD_WINDOW` seconds. -/
def evictOld (now : Int) : List Int → List Int
  | [] => []
  | t :: rest => if FLOOD_WINDOW < now - t then evictOld now rest else t :: rest

/-- `record_message` (lines 90-96): append `now` to the user's deque, evict
stale entries from the front, and return the resulting length (together
with the updated table). -/
def record_message (mt : Nat → List Int) (uid : Nat) (now : Int) :
    Nat × (Nat → List Int) :=
  let dq := evictOld now (mt uid ++ [now])
  (dq.length, updMap mt uid dq)

/-- The warn-ledger step of `warn_cmd` (lines 200-210): increment the
target's count, report it, and if it reached `WARN_BEFORE_MUTE` issue the
auto-mute and reset the count to 0.  Returns (new count, auto-mute issued,
updated table). -/
def warn_cmd (warnings : Nat → Nat) (uid : Nat) : Nat × Bool × (Nat → Nat) :=
  let w := warnings uid + 1
  let w1 := updMap warnings uid w
  if WARN_BEFORE_MUTE ≤ w then (w, true, updMap w1 uid 0) else (w, false, w1)

/-- All mutable module state read or written by the message pipeline:
the flood deques (line 52), the warn ledger (line 53), the offense tables
(lines 54-55) and the runtime-mutable `TRUSTED_USER_IDS` set (line 45). -/
structure ModState where
  trusted : Nat → Bool
  message_times : Nat → List Int
  warnings : Nat → Nat
  offense : OffenseState

/-- One incoming message as the pipeline sees it.  `text`/`caption` model
`msg.text`/`msg.caption` with `[]` for both `None` and `""` (Python
truthiness does not distinguish them anywhere in this handler), `urlSpans`
the `(offset, length)` pairs of the `url`/`text_link` entities, `is_admin`
the transport's admin lookup, and `now` the processing instant
(`datetime.utcnow()`). -/
structure MsgEvent where
  user_id : Nat
  is_bot : Bool
  is_admin : Bool
  text : List Char
  caption : List Char
  urlSpans : List (Nat × Nat)
  now : Int

/-- Python `str.strip()`: drop leading and trailing whitespace. -/
def stripWs (l : List Char) : List Char :=
  ((l.dropWhile isSpaceChar).reverse.dropWhile isSpaceChar).reverse

/-- The signal aggregator (lines 277-291): collect `msg.text`, `msg.caption`
and the substring of each url/text_link entity span of
`base = msg.text or msg.caption or ""`, join them with spaces and strip. -/
def aggregate (e : MsgEvent) : List Char :=
  let base := if e.text ≠ [] then e.text else if e.caption ≠ [] then e.caption else []
  let pieces :=
    (if e.text ≠ [] then [e.text] else []) ++
    (if e.caption ≠ [] then [e.caption] else []) ++
    e.urlSpans.map (fun sp => (base.drop sp.1).take sp.2)
  stripWs (List.intercalate [' '] pieces)

/-- Substring test (Python `in`): the literal occurs somewhere in `l`. -/
def containsLit (w l : List Char) : Bool := searchPos (fun x => (dropLit w x).isSome) l

/-- `any(b in down for b in BANNED_WORDS)` (line 390). -/
def bannedHit (down : List Char) : Bool := BANNED_WORDS.any (fun b => containsLit b down)

/-- `"http://" in down or "https://" in down or "t.me/" in down` (line 397). -/
def linkHit (down : List Char) : Bool :=
  containsLit "http://".toList down || containsLit "https://".toList down ||
  containsLit "t.me/".toList down

/-- The externally visible decision of one run of the pipeline (spec §3
`ModerationAction`); each dealer constructor carries the restriction end its
source branch reports. -/
inductive ModAction
  | allow
  | dealerFirstOffense (untilT : Int)
  | dealerHeld (untilT : Option Int)
  | dealerKick (untilT : Int)
  | bannedWord
  | linkBlocked
  | floodMuted
deriving DecidableEq, Repr

/-- The message-moderation pipeline: the bot/trusted/admin bypasses of
`filter_message` (lines 256-270) followed by the body at lines 277-414
(which textually sits after `chatid_cmd`'s two header lines): aggregate the
text, run the dealer-ad escalation when `ad_score ≥ 3`, else the banned-word
filter, the link filter (admins exempt) and the flood tracker (mute and
clear the deque at `FLOOD_LIMIT`). -/
def filter_message (st : ModState) (e : MsgEvent) : ModAction × ModState :=
  if e.is_bot then (ModAction.allow, st)
  else if st.trusted e.user_id then (ModAction.allow, st)
  else if ADMIN_BYPASS && e.is_admin then (ModAction.allow, st)
  else
    let full_text := aggregate e
    let down := lowerStr full_text
    if 3 ≤ ad_score full_text then
      match on_violation st.offense e.user_id e.now with
      | (Outcome.firstOffense u, off) => (ModAction.dealerFirstOffense u, { st with offense := off })
      | (Outcome.heldDuringRestriction u, off) => (ModAction.dealerHeld u, { st with offense := off })
      | (Outcome.kickDue u, off) => (ModAction.dealerKick u, { st with offense := off })
    else if bannedHit down then (ModAction.bannedWord, st)
    else if LINK_FILTER && linkHit down && !e.is_admin then (ModAction.linkBlocked, st)
    else
      let fl := record_message st.message_times e.user_id e.now
      if FLOOD_LIMIT ≤ fl.1 then
        (ModAction.floodMuted, { st with message_times := updMap fl.2 e.user_id [] })
      else
        (ModAction.allow, { st with message_times := fl.2 })

/-- Call-site embedding of the classifier inside the stateful pipeline:
`ad_score` (lines 69-80) reads only its argument and the compiled pattern
constants — it neither reads nor writes any of the module state — so its
effectful form returns the state unchanged. -/
def classify_call (st : ModState) (text : List Char) : ClassificationResult × ModState :=
  (classify text, st)

/-!  Helper lemmas: characters and literal consumption. -/

theorem space_not_digit {c : Char} (h : isSpaceChar c = true) : c.isDigit = false := by
  simp only [isSpaceChar, Bool.or_eq_true, decide_eq_true_eq] at h
  rcases h with ((((h | h) | h) | h) | h) | h <;> subst h <;> decide

theorem space_ne {x c : Char} (hx : isSpaceChar x = true) (hc : isSpaceChar c = false) :
    x ≠ c := by
  intro he; subst he; rw [hx] at hc; exact absurd hc (by decide)

theorem space_not_word {c : Char} (h : isSpaceChar c = true) : isWordChar c = false := by
  simp only [isSpaceChar, Bool.or_eq_true, decide_eq_true_eq] at h
  rcases h with ((((h | h) | h) | h) | h) | h <;> subst h <;> decide

theorem space_not_currency {c : Char} (h : isSpaceChar c = true) : currencyChar c = false := by
  simp only [isSpaceChar, Bool.or_eq_true, decide_eq_true_eq] at h
  rcases h with ((((h | h) | h) | h) | h) | h <;> subst h <;> decide

theorem space_lower_self {c : Char} (h : isSpaceChar c = true) : asciiLower c = c := by
  simp only [isSpaceChar, Bool.or_eq_true, decide_eq_true_eq] at h
  rcases h with ((((h | h) | h) | h) | h) | h <;> subst h <;> decide

theorem digit_not_sep {c : Char} (h : c.isDigit = true) : sepChar c = false := by
  cases hs : sepChar c
  · rfl
  · exfalso
    simp only [sepChar, Bool.or_eq_true, decide_eq_true_eq] at hs
    rcases hs with (hs | hs) | hs
    · rw [space_not_digit hs] at h; exact absurd h (by decide)
    · subst hs; exact absurd h (by decide)
    · subst hs; exact absurd h (by decide)

theorem dropLit_append {w l r : List Char} (s : List Char) (h : dropLit w l = some r) :
    dropLit w (l ++ s) = some (r ++ s) := by
  induction w generalizing l with
  | nil => simp [dropLit] at h ⊢; exact h
  | cons c w ih =>
    cases l with
    | nil => simp [dropLit] at h
    | cons x l =>
      simp only [dropLit, List.cons_append] at h ⊢
      split at h
      · rename_i hx; rw [if_pos hx]; exact ih h
      · exact absurd h (by simp)

theorem takeDigits_append {k : Nat} {l r : List Char} (s : List Char)
    (h : takeDigits k l = some r) : takeDigits k (l ++ s) = some (r ++ s) := by
  induction k generalizing l with
  | zero => simp [takeDigits] at h ⊢; exact h
  | succ n ih =>
    cases l with
    | nil => simp [takeDigits] at h
    | cons c l =>
      simp only [takeDigits, List.cons_append] at h ⊢
      split at h
      · rename_i hc; rw [if_pos hc]; exact ih h
      · exact absurd h (by simp)

theorem takeDigits_cons_digit {k : Nat} {l r : List Char} (h : takeDigits (k + 1) l = some r) :
    ∃ c l2, l = c :: l2 ∧ c.isDigit = true := by
  cases l with
  | nil => simp [takeDigits] at h
  | cons c l =>
    refine ⟨c, l, rfl, ?_⟩
    simp only [takeDigits] at h
    by_contra hc
    rw [if_neg (by simpa using hc)] at h
    exact absurd h (by simp)

theorem takeDigits_le {j i : Nat} (hij : i ≤ j) {l : List Char}
    (h : (takeDigits j l).isSome = true) : (takeDigits i l).isSome = true := by
  induction i generalizing j l with
  | zero => simp [takeDigits]
  | succ n ih =>
    obtain ⟨m, rfl⟩ : ∃ m, j = m + 1 := ⟨j - 1, by omega⟩
    obtain ⟨r, hr⟩ := Option.isSome_iff_exists.mp h
    obtain ⟨c, l2, rfl, hc⟩ := takeDigits_cons_digit hr
    simp only [takeDigits, if_pos hc] at h ⊢
    exact ih (by omega) h

theorem searchPos_of_here {p : List Char → Bool} {l : List Char} (h : p l = true) :
    searchPos p l = true := by
  cases l with
  | nil => simpa [searchPos] using h
  | cons c l => simp [searchPos, h]

theorem searchPos_prepend {p : List Char → Bool} {s : List Char} (a : List Char)
    (h : searchPos p s = true) : searchPos p (a ++ s) = true := by
  induction a with
  | nil => simpa using h
  | cons c a ih => simp [searchPos, ih]

theorem searchPos_mem_suffix {p : List Char → Bool} {l s : List Char}
    (hsuf : s <:+ l) (h : p s = true) : searchPos p l = true := by
  obtain ⟨a, rfl⟩ := hsuf
  exact searchPos_prepend a (searchPos_of_here h)

theorem searchPos_append {p : List Char → Bool} {l : List Char} (s : List Char)
    (hstable : ∀ x, p x = true → p (x ++ s) = true) (h : searchPos p l = true) :
    searchPos p (l ++ s) = true := by
  induction l with
  | nil => exact searchPos_of_here (hstable [] (by simpa [searchPos] using h))
  | cons c l ih =>
    simp only [searchPos, Bool.or_eq_true] at h
    rcases h with h | h
    · exact searchPos_of_here (hstable (c :: l) h)
    · simpa [searchPos] using Or.inr (ih h)

theorem searchPos_blank {p : List Char → Bool} {t : List Char}
    (hhere : ∀ l2, l2 <:+ t → p l2 = false) : searchPos p t = false := by
  induction t with
  | nil => simpa [searchPos] using hhere [] ⟨[], rfl⟩
  | cons c l ih =>
    simp only [searchPos, Bool.or_eq_false_iff]
    exact ⟨hhere (c :: l) ⟨[], rfl⟩,
      ih fun l2 hl2 => hhere l2 (hl2.trans (List.suffix_cons c l))⟩

/-!  Helper lemmas: right extension (appending cannot destroy a match) and
blank texts (no detector matches whitespace-only text). -/

theorem optSep_append {r : List Char} (s : List Char) (hne : r ≠ []) :
    optSep (r ++ s) = optSep r ++ s := by
  cases r with
  | nil => exact absurd rfl hne
  | cons c r => simp only [optSep, List.cons_append]; split <;> simp

theorem phoneCoreFrom_stable {a : Nat} {l : List Char} (s : List Char)
    (h : phoneCoreFrom a l = true) : phoneCoreFrom a (l ++ s) = true := by
  unfold phoneCoreFrom at h ⊢
  cases htd : takeDigits a l with
  | none => rw [htd] at h; simp at h
  | some r =>
    rw [htd] at h
    have h2 : (takeDigits 3 (optSep r)).isSome = true := h
    rw [takeDigits_append s htd]
    show (takeDigits 3 (optSep (r ++ s))).isSome = true
    have hrne : r ≠ [] := by
      intro hr; subst hr; simp [optSep, takeDigits] at h2
    rw [optSep_append s hrne]
    obtain ⟨r2, hr2⟩ := Option.isSome_iff_exists.mp h2
    simp [takeDigits_append s hr2]

theorem phoneHere_stable {l : List Char} (s : List Char) (h : phoneHere l = true) :
    phoneHere (l ++ s) = true := by
  simp only [phoneHere, Bool.or_eq_true] at h ⊢
  rcases h with h | h
  · exact Or.inl (phoneCoreFrom_stable s h)
  · exact Or.inr (phoneCoreFrom_stable s h)

theorem nonSpaceAfter_stable {w l : List Char} (s : List Char)
    (h : nonSpaceAfter w l = true) : nonSpaceAfter w (l ++ s) = true := by
  unfold nonSpaceAfter at h ⊢
  cases hd : dropLit w l with
  | none => rw [hd] at h; simp at h
  | some r =>
    rw [hd] at h
    cases r with
    | nil => simp at h
    | cons c r2 => rw [dropLit_append s hd]; simpa using h

theorem waHere_stable {l : List Char} (s : List Char) (h : waHere l = true) :
    waHere (l ++ s) = true := by
  simp only [waHere, List.any_eq_true] at h ⊢
  obtain ⟨w, hw, hns⟩ := h
  exact ⟨w, hw, nonSpaceAfter_stable s hns⟩

theorem tgHere_stable {l : List Char} (s : List Char) (h : tgHere l = true) :
    tgHere (l ++ s) = true := by
  unfold tgHere at h ⊢
  cases hd : dropLit tgLit l with
  | none => rw [hd] at h; simp at h
  | some r =>
    rw [hd] at h
    cases r with
    | nil => simp at h
    | cons c r2 => rw [dropLit_append s hd]; simpa using h

theorem digitHead_stable {l : List Char} (s : List Char) (h : digitHead l = true) :
    digitHead (l ++ s) = true := by
  cases l with
  | nil => simp [digitHead] at h
  | cons c l => simpa [digitHead] using h

theorem priceTail_stable {l : List Char} (s : List Char) (h : priceTail l = true) :
    priceTail (l ++ s) = true := by
  cases l with
  | nil => simp [priceTail] at h
  | cons c l =>
    simp only [priceTail, List.cons_append, Bool.or_eq_true, Bool.and_eq_true] at h ⊢
    rcases h with h | ⟨hs, hd⟩
    · exact Or.inl h
    · exact Or.inr ⟨hs, digitHead_stable s hd⟩

theorem priceHere_stable {l : List Char} (s : List Char) (h : priceHere l = true) :
    priceHere (l ++ s) = true := by
  cases l with
  | nil => simp [priceHere] at h
  | cons c l =>
    simp only [priceHere, List.cons_append, Bool.and_eq_true] at h ⊢
    exact ⟨h.1, priceTail_stable s h.2⟩

theorem litWordHere_append {w l m : List Char} (hm : rightBound m = true)
    (h : litWordHere w l = true) : litWordHere w (l ++ m) = true := by
  unfold litWordHere at h ⊢
  cases hd : dropLit w l with
  | none => rw [hd] at h; simp at h
  | some r =>
    rw [hd] at h
    rw [dropLit_append m hd]
    cases r with
    | nil => simpa using hm
    | cons c r2 => simpa [rightBound] using h

theorem searchWords_append {lits : List (List Char)} {prev : Option Char}
    {l m : List Char} (hm : rightBound m = true)
    (h : searchWords lits prev l = true) : searchWords lits prev (l ++ m) = true := by
  induction l generalizing prev with
  | nil => simp [searchWords] at h
  | cons c l ih =>
    simp only [searchWords, Bool.or_eq_true, Bool.and_eq_true, List.any_eq_true,
      List.cons_append] at h ⊢
    rcases h with ⟨hb, w, hw, hlit⟩ | h
    · exact Or.inl ⟨hb, w, hw, by
        have := litWordHere_append hm hlit
        simpa using this⟩
    · exact Or.inr (ih h)

theorem searchWords_prev_mono {lits : List (List Char)} {q q2 : Option Char}
    {l : List Char} (himp : leftBound q = true → leftBound q2 = true)
    (h : searchWords lits q l = true) : searchWords lits q2 l = true := by
  cases l with
  | nil => simp [searchWords] at h
  | cons c l =>
    simp only [searchWords, Bool.or_eq_true, Bool.and_eq_true] at h ⊢
    rcases h with ⟨hb, hany⟩ | h
    · exact Or.inl ⟨himp hb, hany⟩
    · exact Or.inr h

theorem searchWords_prepend_sep {lits : List (List Char)} {s : List Char}
    (h : searchWords lits none s = true) :
    ∀ (q : Option Char) (a : List Char), searchWords lits q (a ++ ' ' :: s) = true := by
  intro q a
  induction a generalizing q with
  | nil =>
    simp only [List.nil_append, searchWords, Bool.or_eq_true]
    exact Or.inr (searchWords_prev_mono (fun _ => by decide) h)
  | cons c a ih =>
    simp only [List.cons_append, searchWords, Bool.or_eq_true]
    exact Or.inr (ih (some c))

theorem dropLit_blank_head {w : List Char} (hw : headNonSpace w = true)
    {x : Char} (hx : isSpaceChar x = true) (l : List Char) :
    dropLit w (x :: l) = none := by
  cases w with
  | nil => simp [headNonSpace] at hw
  | cons c0 w2 =>
    simp only [headNonSpace, Bool.not_eq_true'] at hw
    simp [dropLit, space_ne hx hw]

theorem takeDigits_none_of_head {k : Nat} (hk : k ≠ 0) {x : Char}
    (hx : x.isDigit = false) (l : List Char) : takeDigits k (x :: l) = none := by
  cases k with
  | zero => exact absurd rfl hk
  | succ n => simp [takeDigits, hx]

theorem phoneHere_blank {l : List Char} (hsp : ∀ c ∈ l, isSpaceChar c = true) :
    phoneHere l = false := by
  cases l with
  | nil => decide
  | cons x l2 =>
    have hx : x.isDigit = false := space_not_digit (hsp x (List.mem_cons_self x l2))
    simp [phoneHere, phoneCoreFrom, takeDigits_none_of_head (by decide : (3 : Nat) ≠ 0) hx,
      takeDigits_none_of_head (by decide : (4 : Nat) ≠ 0) hx]

theorem waHere_blank {l : List Char} (hsp : ∀ c ∈ l, isSpaceChar c = true) :
    waHere l = false := by
  cases l with
  | nil => decide
  | cons x l2 =>
    have hx := hsp x (List.mem_cons_self x l2)
    have hall : waLits.all headNonSpace = true := by decide
    simp only [waHere, List.any_eq_false]
    intro w hw
    rw [nonSpaceAfter, dropLit_blank_head (List.all_eq_true.mp hall w hw) hx]
    simp

theorem tgHere_blank {l : List Char} (hsp : ∀ c ∈ l, isSpaceChar c = true) :
    tgHere l = false := by
  cases l with
  | nil => decide
  | cons x l2 =>
    have hx := hsp x (List.mem_cons_self x l2)
    rw [tgHere, dropLit_blank_head (by decide : headNonSpace tgLit = true) hx]

theorem priceHere_blank {l : List Char} (hsp : ∀ c ∈ l, isSpaceChar c = true) :
    priceHere l = false := by
  cases l with
  | nil => rfl
  | cons x l2 =>
    simp [priceHere, space_not_currency (hsp x (List.mem_cons_self x l2))]

theorem searchWords_blank {lits : List (List Char)} (hlits : lits.all headNonSpace = true)
    {t : List Char} (hsp : ∀ c ∈ t, isSpaceChar c = true) (prev : Option Char) :
    searchWords lits prev t = false := by
  induction t generalizing prev with
  | nil => rfl
  | cons x l2 ih =>
    have hx := hsp x (List.mem_cons_self x l2)
    simp only [searchWords, Bool.or_eq_false_iff]
    refine ⟨?_, ih (fun c hc => hsp c (List.mem_cons_of_mem x hc)) (some x)⟩
    have hany : lits.any (fun w => litWordHere w (x :: l2)) = false := by
      simp only [List.any_eq_false]
      intro w hw
      rw [litWordHere, dropLit_blank_head (List.all_eq_true.mp hlits w hw) hx]
      simp
    rw [hany, Bool.and_false]

/-!  Helper lemmas: the fullmatch parser.  Every parser only consumes from
the front, so each remainder is a suffix; and a successful full parse
contains an occurrence of the mandatory phone core. -/

theorem pExact_suffix {c : Char} {l r : List Char} (h : r ∈ pExact c l) : r <:+ l := by
  cases l with
  | nil => simp [pExact] at h
  | cons x l =>
    simp only [pExact] at h
    split at h
    · simp only [List.mem_singleton] at h
      rw [h]; exact List.suffix_cons x l
    · simp at h

theorem pOpt_suffix {f : List Char → List (List Char)}
    (hf : ∀ l r, r ∈ f l → r <:+ l) : ∀ l r, r ∈ pOpt f l → r <:+ l := by
  intro l r h
  simp only [pOpt, List.mem_cons] at h
  rcases h with rfl | h
  · exact List.suffix_refl _
  · exact hf l r h

theorem pSeq_suffix {f g : List Char → List (List Char)}
    (hf : ∀ l r, r ∈ f l → r <:+ l) (hg : ∀ l r, r ∈ g l → r <:+ l) :
    ∀ l r, r ∈ pSeq f g l → r <:+ l := by
  intro l r h
  simp only [pSeq, List.mem_flatMap] at h
  obtain ⟨m, hm, hr⟩ := h
  exact (hg m r hr).trans (hf l m hm)

theorem takeDigits_suffix {k : Nat} {l r : List Char} (h : takeDigits k l = some r) :
    r <:+ l := by
  induction k generalizing l with
  | zero => simp only [takeDigits, Option.some.injEq] at h; subst h; exact List.suffix_refl _
  | succ n ih =>
    cases l with
    | nil => simp [takeDigits] at h
    | cons c l =>
      simp only [takeDigits] at h
      split at h
      · exact (ih h).trans (List.suffix_cons c l)
      · simp at h

theorem pDigits_suffix (k : Nat) : ∀ l r, r ∈ pDigits k l → r <:+ l := by
  intro l r h
  simp only [pDigits, Option.mem_toList, Option.mem_def] at h
  exact takeDigits_suffix h

theorem pDigitsRange_suffix (lo hi : Nat) : ∀ l r, r ∈ pDigitsRange lo hi l → r <:+ l := by
  intro l r h
  simp only [pDigitsRange, List.mem_flatMap] at h
  obtain ⟨k, _, hr⟩ := h
  exact pDigits_suffix k l r hr

theorem pSepChar_suffix {l r : List Char} (h : r ∈ pSepChar l) : r <:+ l := by
  cases l with
  | nil => simp [pSepChar] at h
  | cons c l =>
    simp only [pSepChar] at h
    split at h
    · simp only [List.mem_singleton] at h
      rw [h]; exact List.suffix_cons c l
    · simp at h

theorem pWs_suffix : ∀ l r, r ∈ pWs l → r <:+ l := by
  intro l
  induction l with
  | nil => intro r h; simp only [pWs, List.mem_singleton] at h; rw [h]
  | cons c l ih =>
    intro r h
    simp only [pWs] at h
    split at h
    · simp only [List.mem_cons] at h
      rcases h with rfl | h
      · exact List.suffix_refl _
      · exact (ih r h).trans (List.suffix_cons c l)
    · simp only [List.mem_singleton] at h
      rw [h]

theorem pPhoneG1_suffix : ∀ l r, r ∈ pPhoneG1 l → r <:+ l :=
  pOpt_suffix (pSeq_suffix (pOpt_suffix fun _ _ h => pExact_suffix h)
    (pSeq_suffix (pDigitsRange_suffix 1 3) (pOpt_suffix fun _ _ h => pSepChar_suffix h)))

theorem pPhoneG2_suffix : ∀ l r, r ∈ pPhoneG2 l → r <:+ l :=
  pOpt_suffix (pSeq_suffix (pOpt_suffix fun _ _ h => pExact_suffix h)
    (pSeq_suffix (pDigitsRange_suffix 2 4)
      (pSeq_suffix (pOpt_suffix fun _ _ h => pExact_suffix h)
        (pOpt_suffix fun _ _ h => pSepChar_suffix h))))

theorem mem_pDigitsRange34 {l r : List Char} (h : r ∈ pDigitsRange 3 4 l) :
    takeDigits 3 l = some r ∨ takeDigits 4 l = some r := by
  simp only [pDigitsRange, List.mem_flatMap, pDigits, Option.mem_toList, Option.mem_def] at h
  obtain ⟨k, hk, hr⟩ := h
  rw [show (4 + 1 - 3 : Nat) = 2 from rfl] at hk
  rw [show List.range' 3 2 = [3, 4] from rfl] at hk
  simp only [List.mem_cons, List.mem_singleton, List.not_mem_nil, or_false] at hk
  rcases hk with rfl | rfl
  · exact Or.inl hr
  · exact Or.inr hr

theorem mem_pSepChar {l r : List Char} (h : r ∈ pSepChar l) :
    ∃ c, l = c :: r ∧ sepChar c = true := by
  cases l with
  | nil => simp [pSepChar] at h
  | cons c l =>
    simp only [pSepChar] at h
    split at h
    · simp only [List.mem_singleton] at h
      subst h; rename_i hc; exact ⟨c, rfl, hc⟩
    · simp at h

theorem takeDigits_head_digit {k : Nat} (hk : k ≠ 0) {l r : List Char}
    (h : takeDigits k l = some r) : ∃ c l2, l = c :: l2 ∧ c.isDigit = true := by
  cases k with
  | zero => exact absurd rfl hk
  | succ n => exact takeDigits_cons_digit h

/-- A successful fullmatch of `\s*PHONE\s*` contains an occurrence of the
mandatory core of `PHONE_RE` at some position. -/
theorem fullPhone_core {t : List Char} (h : fullPhone t = true) :
    ∃ rb, rb <:+ t ∧ phoneHere rb = true := by
  simp only [fullPhone, List.any_eq_true] at h
  obtain ⟨r0, hr0, hemp⟩ := h
  have hr0e : r0 = [] := by
    cases r0
    · rfl
    · simp [List.isEmpty] at hemp
  subst hr0e
  rw [pSeq, List.mem_flatMap] at hr0
  obtain ⟨r1, hr1, hr0⟩ := hr0
  rw [pSeq, List.mem_flatMap] at hr0
  obtain ⟨r2, hr2, hws2⟩ := hr0
  rw [pPhone, pSeq, List.mem_flatMap] at hr2
  obtain ⟨ra, hra, hr2⟩ := hr2
  rw [pSeq, List.mem_flatMap] at hr2
  obtain ⟨rb, hrb, hr2⟩ := hr2
  rw [pPhoneCore, pSeq, List.mem_flatMap] at hr2
  obtain ⟨rc, hrc, hr2⟩ := hr2
  rw [pSeq, List.mem_flatMap] at hr2
  obtain ⟨rd, hrd, hr2⟩ := hr2
  refine ⟨rb, ((pPhoneG2_suffix ra rb hrb).trans (pPhoneG1_suffix r1 ra hra)).trans
    (pWs_suffix t r1 hr1), ?_⟩
  have hrd34 : (takeDigits 3 rd).isSome = true := by
    rcases mem_pDigitsRange34 hr2 with h3 | h4
    · rw [h3]; rfl
    · exact @takeDigits_le 4 3 (by omega) rd (by rw [h4]; rfl)
  have hopt : (takeDigits 3 (optSep rc)).isSome = true := by
    simp only [pOpt, List.mem_cons] at hrd
    rcases hrd with rfl | hsep
    · obtain ⟨r3, hr3⟩ := Option.isSome_iff_exists.mp hrd34
      obtain ⟨c, l2, heq, hc⟩ := takeDigits_head_digit (by decide : (3 : Nat) ≠ 0) hr3
      subst heq
      simp only [optSep, digit_not_sep hc]
      simpa using hrd34
    · obtain ⟨c0, heq, hsc⟩ := mem_pSepChar hsep
      subst heq
      simp only [optSep, hsc]
      simpa using hrd34
  rcases mem_pDigitsRange34 hrc with h3 | h4
  · simp only [phoneHere, phoneCoreFrom, h3, Bool.or_eq_true]
    exact Or.inl hopt
  · simp only [phoneHere, phoneCoreFrom, h4, Bool.or_eq_true]
    exact Or.inr hopt

/-- The whole-string bonus implies the plain phone signal: a fullmatch
contains a searchable occurrence of the phone core. -/
theorem fullPhone_phoneFires {t : List Char} (h : fullPhone t = true) :
    phoneFires t = true := by
  obtain ⟨rb, hsuf, hhere⟩ := fullPhone_core h
  exact searchPos_mem_suffix hsuf hhere

theorem fullPhone_blank {t : List Char} (hsp : ∀ c ∈ t, isSpaceChar c = true) :
    fullPhone t = false := by
  cases hf : fullPhone t
  · rfl
  · exfalso
    obtain ⟨rb, hsuf, hhere⟩ := fullPhone_core hf
    rw [phoneHere_blank (fun c hc => hsp c (hsuf.sublist.subset hc))] at hhere
    exact absurd hhere (by decide)

/-!  Helper lemmas. -/

theorem updMap_self {β : Type} (f : Nat → β) (k : Nat) (v : β) : updMap f k v k = v := by
  simp [updMap]

theorem updMap_other {β : Type} (f : Nat → β) (k : Nat) (v : β) (x : Nat) (h : x ≠ k) :
    updMap f k v x = f x := by
  simp [updMap, h]

/-- First-offense step of `on_violation`, fully described. -/
theorem on_violation_fresh (st : OffenseState) (uid : Nat) (now : Int)
    (h0 : st.user_offenses uid = 0) :
    on_violation st uid now =
      (Outcome.firstOffense (now + RESTRICTION_DURATION),
        ⟨updMap st.user_offenses uid 1,
         updMap st.restriction_until uid (some (now + RESTRICTION_DURATION))⟩) := by
  simp [on_violation, h0]

/-- Held step of `on_violation` when a live restriction entry exists. -/
theorem on_violation_held (st : OffenseState) (uid : Nat) (now u : Int)
    (h0 : st.user_offenses uid ≠ 0) (hu : st.restriction_until uid = some u)
    (hlt : now < u) :
    on_violation st uid now =
      (Outcome.heldDuringRestriction (some u),
        ⟨updMap st.user_offenses uid (st.user_offenses uid + 1), st.restriction_until⟩) := by
  have hne : ¬ st.user_offenses uid + 1 = 1 := by omega
  have hnle : ¬ u ≤ now := not_le.mpr hlt
  simp [on_violation, hne, hu, hnle]

/-- Kick step of `on_violation` when the restriction period has passed. -/
theorem on_violation_kick (st : OffenseState) (uid : Nat) (now u : Int)
    (h0 : st.user_offenses uid ≠ 0) (hu : st.restriction_until uid = some u)
    (hge : u ≤ now) :
    on_violation st uid now =
      (Outcome.kickDue u,
        ⟨updMap (updMap st.user_offenses uid (st.user_offenses uid + 1)) uid 0,
         updMap st.restriction_until uid none⟩) := by
  have hne : ¬ st.user_offenses uid + 1 = 1 := by omega
  simp [on_violation, hne, hu, hge]

/-- Held step of `on_violation` when the restriction entry is missing. -/
theorem on_violation_held_missing (st : OffenseState) (uid : Nat) (now : Int)
    (h0 : st.user_offenses uid ≠ 0) (hu : st.restriction_until uid = none) :
    on_violation st uid now =
      (Outcome.heldDuringRestriction none,
        ⟨updMap st.user_offenses uid (st.user_offenses uid + 1), st.restriction_until⟩) := by
  have hne : ¬ st.user_offenses uid + 1 = 1 := by omega
  simp [on_violation, hne, hu]

/-!  Helper lemmas: the score as a sum of weights. -/

theorem ad_score_ifs (text : List Char) :
    ad_score text =
      (if phoneFires (lowerStr text) then 3 else 0) +
      (if waFires (lowerStr text) then 4 else 0) +
      (if tgFires (lowerStr text) then 3 else 0) +
      (if priceFires (lowerStr text) then 3 else 0) +
      (if sellFires (lowerStr text) then 3 else 0) +
      (if payFires (lowerStr text) then 2 else 0) +
      (if fullPhone (lowerStr text) then 2 else 0) := by
  simp only [ad_score]
  cases h1 : phoneFires (lowerStr text) <;>
  cases h2 : waFires (lowerStr text) <;>
  cases h3 : tgFires (lowerStr text) <;>
  cases h4 : priceFires (lowerStr text) <;>
  cases h5 : sellFires (lowerStr text) <;>
  cases h6 : payFires (lowerStr text) <;>
  cases h7 : fullPhone (lowerStr text) <;>
  simp [h1, h2, h3, h4, h5, h6, h7]

theorem matched_weight_sum (text : List Char) :
    ((matchedSignals text).map weight).sum =
      (if phoneFires (lowerStr text) then 3 else 0) +
      (if waFires (lowerStr text) then 4 else 0) +
      (if tgFires (lowerStr text) then 3 else 0) +
      (if priceFires (lowerStr text) then 3 else 0) +
      (if sellFires (lowerStr text) then 3 else 0) +
      (if payFires (lowerStr text) then 2 else 0) := by
  simp only [matchedSignals]
  cases h1 : phoneFires (lowerStr text) <;>
  cases h2 : waFires (lowerStr text) <;>
  cases h3 : tgFires (lowerStr text) <;>
  cases h4 : priceFires (lowerStr text) <;>
  cases h5 : sellFires (lowerStr text) <;>
  cases h6 : payFires (lowerStr text) <;>
  simp [h1, h2, h3, h4, h5, h6, weight]

theorem lowerStr_sep (t s : List Char) :
    lowerStr (t ++ ' ' :: s) = lowerStr t ++ ' ' :: lowerStr s := by
  simp [lowerStr, show asciiLower ' ' = ' ' from rfl]

theorem lowerStr_blank {t : List Char} (h : ∀ c ∈ t, isSpaceChar c = true) :
    ∀ c ∈ lowerStr t, isSpaceChar c = true := by
  intro c hc
  simp only [lowerStr, List.mem_map] at hc
  obtain ⟨c0, hc0, rfl⟩ := hc
  rw [space_lower_self (h c0 hc0)]
  exact h c0 hc0

theorem ite_w_mono {b b2 : Bool} (w : Nat) (himp : b = true → b2 = true) :
    (if b then w else 0) ≤ (if b2 then w else 0) := by
  cases b
  · simp
  · rw [himp rfl, if_pos rfl]

/-!  Claim theorems: the classifier. -/

/-- Claim C3: the score is the sum of the fixed weights of the matched
signals (phone 3, chat-app link 4, same-platform invite 3, price-per-weight
3, sell keyword 3, payment keyword 2), plus a +2 bonus — which always comes
on top of the phone signal — when the whole string is a phone-number
pattern; the total never exceeds 20. -/
theorem ad_score_weight_sum (text : List Char) :
    ad_score text = ((matchedSignals text).map weight).sum +
      (if fullPhone (lowerStr text) then 2 else 0) ∧
    (fullPhone (lowerStr text) = true → Signal.phone ∈ matchedSignals text) ∧
    ad_score text ≤ 20 := by
  refine ⟨?_, ?_, ?_⟩
  · rw [ad_score_ifs, matched_weight_sum]
  · intro hf
    have hp := fullPhone_phoneFires hf
    simp [matchedSignals, hp]
  · rw [ad_score_ifs]
    split_ifs <;> omega

/-- Witness for C3 on a whole-string phone message: the bonus rides on top
of the phone signal, and the bound holds. -/
theorem ad_score_weight_sum_case :
    Signal.phone ∈ matchedSignals "07911 123456".toList ∧
    ad_score "07911 123456".toList ≤ 20 :=
  ⟨(ad_score_weight_sum "07911 123456".toList).2.1 (by decide),
   (ad_score_weight_sum "07911 123456".toList).2.2⟩

/-- Claim C4: the empty text and every whitespace-only text score 0 with an
empty matched-signal set. -/
theorem ad_score_blank_zero (t : List Char) (h : ∀ c ∈ t, isSpaceChar c = true) :
    ad_score t = 0 ∧ matchedSignals t = [] := by
  have hl := lowerStr_blank h
  have hsuffix : ∀ l2, l2 <:+ lowerStr t → ∀ c ∈ l2, isSpaceChar c = true :=
    fun l2 hs c hc => hl c (hs.sublist.subset hc)
  have hp : phoneFires (lowerStr t) = false :=
    searchPos_blank fun l2 hs => phoneHere_blank (hsuffix l2 hs)
  have hw : waFires (lowerStr t) = false :=
    searchPos_blank fun l2 hs => waHere_blank (hsuffix l2 hs)
  have htg : tgFires (lowerStr t) = false :=
    searchPos_blank fun l2 hs => tgHere_blank (hsuffix l2 hs)
  have hpr : priceFires (lowerStr t) = false :=
    searchPos_blank fun l2 hs => priceHere_blank (hsuffix l2 hs)
  have hse : sellFires (lowerStr t) = false := searchWords_blank (by decide) hl none
  have hpa : payFires (lowerStr t) = false := searchWords_blank (by decide) hl none
  have hfp : fullPhone (lowerStr t) = false := fullPhone_blank hl
  constructor
  · simp [ad_score, hp, hw, htg, hpr, hse, hpa, hfp]
  · simp [matchedSignals, hp, hw, htg, hpr, hse, hpa, hfp]

/-- Witness for C4: the empty string and a concrete whitespace-only string. -/
theorem ad_score_blank_zero_case :
    (ad_score [] = 0 ∧ matchedSignals [] = []) ∧
    (ad_score [' ', '\t'] = 0 ∧ matchedSignals [' ', '\t'] = []) :=
  ⟨ad_score_blank_zero [] (by simp), ad_score_blank_zero [' ', '\t'] (by decide)⟩

/-- Claim C5: appending (as a new whitespace-separated sentence) a sentence
that matches a signal detector the original text does not match never
decreases the score — even when the original text was a whole-string phone
message and the extension forfeits the +2 bonus, since every detector
weight is at least 2. -/
theorem ad_score_extra_signal_mono (t s : List Char) (d : Signal)
    (hds : fires d s = true) (hdt : fires d t = false) :
    ad_score t ≤ ad_score (t ++ ' ' :: s) := by
  have hsep := lowerStr_sep t s
  have hphone : phoneFires (lowerStr t) = true →
      phoneFires (lowerStr t ++ ' ' :: lowerStr s) = true :=
    fun h => searchPos_append (' ' :: lowerStr s) (fun x hx => phoneHere_stable _ hx) h
  have hwa : waFires (lowerStr t) = true →
      waFires (lowerStr t ++ ' ' :: lowerStr s) = true :=
    fun h => searchPos_append (' ' :: lowerStr s) (fun x hx => waHere_stable _ hx) h
  have htg : tgFires (lowerStr t) = true →
      tgFires (lowerStr t ++ ' ' :: lowerStr s) = true :=
    fun h => searchPos_append (' ' :: lowerStr s) (fun x hx => tgHere_stable _ hx) h
  have hpr : priceFires (lowerStr t) = true →
      priceFires (lowerStr t ++ ' ' :: lowerStr s) = true :=
    fun h => searchPos_append (' ' :: lowerStr s) (fun x hx => priceHere_stable _ hx) h
  have hbound : rightBound (' ' :: lowerStr s) = true := by
    simp only [rightBound]; decide
  have hse : sellFires (lowerStr t) = true →
      sellFires (lowerStr t ++ ' ' :: lowerStr s) = true :=
    fun h => searchWords_append hbound h
  have hpa : payFires (lowerStr t) = true →
      payFires (lowerStr t ++ ' ' :: lowerStr s) = true :=
    fun h => searchWords_append hbound h
  have hbt : (if fullPhone (lowerStr t) then 2 else 0) ≤ 2 := by split_ifs <;> omega
  rw [ad_score_ifs t, ad_score_ifs (t ++ ' ' :: s), hsep]
  cases d with
  | phone =>
    have hdt2 : phoneFires (lowerStr t) = false := hdt
    have hd2 : phoneFires (lowerStr t ++ ' ' :: lowerStr s) = true := by
      have h0 : phoneFires (lowerStr s) = true := hds
      have := searchPos_prepend (lowerStr t ++ [' ']) h0
      simpa using this
    have m2 := ite_w_mono 4 hwa
    have m3 := ite_w_mono 3 htg
    have m4 := ite_w_mono 3 hpr
    have m5 := ite_w_mono 3 hse
    have m6 := ite_w_mono 2 hpa
    rw [hdt2, hd2]
    simp only [Bool.false_eq_true, if_false, eq_self_iff_true, if_true]
    omega
  | waLink =>
    have hdt2 : waFires (lowerStr t) = false := hdt
    have hd2 : waFires (lowerStr t ++ ' ' :: lowerStr s) = true := by
      have h0 : waFires (lowerStr s) = true := hds
      have := searchPos_prepend (lowerStr t ++ [' ']) h0
      simpa using this
    have m1 := ite_w_mono 3 hphone
    have m3 := ite_w_mono 3 htg
    have m4 := ite_w_mono 3 hpr
    have m5 := ite_w_mono 3 hse
    have m6 := ite_w_mono 2 hpa
    rw [hdt2, hd2]
    simp only [Bool.false_eq_true, if_false, eq_self_iff_true, if_true]
    omega
  | tgInvite =>
    have hdt2 : tgFires (lowerStr t) = false := hdt
    have hd2 : tgFires (lowerStr t ++ ' ' :: lowerStr s) = true := by
      have h0 : tgFires (lowerStr s) = true := hds
      have := searchPos_prepend (lowerStr t ++ [' ']) h0
      simpa using this
    have m1 := ite_w_mono 3 hphone
    have m2 := ite_w_mono 4 hwa
    have m4 := ite_w_mono 3 hpr
    have m5 := ite_w_mono 3 hse
    have m6 := ite_w_mono 2 hpa
    rw [hdt2, hd2]
    simp only [Bool.false_eq_true, if_false, eq_self_iff_true, if_true]
    omega
  | priceWeight =>
    have hdt2 : priceFires (lowerStr t) = false := hdt
    have hd2 : priceFires (lowerStr t ++ ' ' :: lowerStr s) = true := by
      have h0 : priceFires (lowerStr s) = true := hds
      have := searchPos_prepend (lowerStr t ++ [' ']) h0
      simpa using this
    have m1 := ite_w_mono 3 hphone
    have m2 := ite_w_mono 4 hwa
    have m3 := ite_w_mono 3 htg
    have m5 := ite_w_mono 3 hse
    have m6 := ite_w_mono 2 hpa
    rw [hdt2, hd2]
    simp only [Bool.false_eq_true, if_false, eq_self_iff_true, if_true]
    omega
  | sellKw =>
    have hdt2 : sellFires (lowerStr t) = false := hdt
    have hd2 : sellFires (lowerStr t ++ ' ' :: lowerStr s) = true := by
      have h0 : sellFires (lowerStr s) = true := hds
      exact searchWords_prepend_sep h0 none (lowerStr t)
    have m1 := ite_w_mono 3 hphone
    have m2 := ite_w_mono 4 hwa
    have m3 := ite_w_mono 3 htg
    have m4 := ite_w_mono 3 hpr
    have m6 := ite_w_mono 2 hpa
    rw [hdt2, hd2]
    simp only [Bool.false_eq_true, if_false, eq_self_iff_true, if_true]
    omega
  | payment =>
    have hdt2 : payFires (lowerStr t) = false := hdt
    have hd2 : payFires (lowerStr t ++ ' ' :: lowerStr s) = true := by
      have h0 : payFires (lowerStr s) = true := hds
      exact searchWords_prepend_sep h0 none (lowerStr t)
    have m1 := ite_w_mono 3 hphone
    have m2 := ite_w_mono 4 hwa
    have m3 := ite_w_mono 3 htg
    have m4 := ite_w_mono 3 hpr
    have m5 := ite_w_mono 3 hse
    rw [hdt2, hd2]
    simp only [Bool.false_eq_true, if_false, eq_self_iff_true, if_true]
    omega

/-- Witness for C5: a whole-string phone message (score 5 with the bonus)
extended by a payment sentence — the bonus is forfeited but the payment
weight compensates. -/
theorem ad_score_extra_signal_mono_case :
    fires Signal.payment "paypal".toList = true ∧
    fires Signal.payment "07911 123456".toList = false ∧
    ad_score "07911 123456".toList ≤
      ad_score ("07911 123456".toList ++ ' ' :: "paypal".toList) :=
  ⟨by decide, by decide,
   ad_score_extra_signal_mono "07911 123456".toList "paypal".toList Signal.payment
     (by decide) (by decide)⟩

/-!  Claim theorems: escalation state machine. -/

/-- Claim C1: offense escalation sequence — for a fresh user, the first
qualifying violation at `t1` yields `firstOffense` ending at
`t1 + RESTRICTION_DURATION`; a second violation before that end yields
`heldDuringRestriction` with the end unchanged; a violation at or after the
end yields `kickDue`; and after the post-kick reset a further violation
yields `firstOffense` again. -/
theorem dealer_escalation_cycle (st : OffenseState) (uid : Nat) (t1 t2 t3 t4 : Int)
    (h0 : st.user_offenses uid = 0)
    (h2 : t2 < t1 + RESTRICTION_DURATION)
    (h3 : t1 + RESTRICTION_DURATION ≤ t3) :
    (on_violation st uid t1).1 = Outcome.firstOffense (t1 + RESTRICTION_DURATION) ∧
    (on_violation (on_violation st uid t1).2 uid t2).1 =
      Outcome.heldDuringRestriction (some (t1 + RESTRICTION_DURATION)) ∧
    (on_violation (on_violation (on_violation st uid t1).2 uid t2).2 uid t3).1 =
      Outcome.kickDue (t1 + RESTRICTION_DURATION) ∧
    (on_violation (on_violation (on_violation (on_violation st uid t1).2 uid t2).2 uid t3).2
        uid t4).1 = Outcome.firstOffense (t4 + RESTRICTION_DURATION) := by
  have e1 := on_violation_fresh st uid t1 h0
  have e2 := on_violation_held (on_violation st uid t1).2 uid t2 (t1 + RESTRICTION_DURATION)
    (by rw [e1]; simp [updMap_self]) (by rw [e1]; simp [updMap_self]) h2
  have e3 := on_violation_kick (on_violation (on_violation st uid t1).2 uid t2).2 uid t3
    (t1 + RESTRICTION_DURATION)
    (by rw [e2]; simp [updMap_self])
    (by rw [e2]; rw [e1]; simp [updMap_self]) h3
  have e4 := on_violation_fresh
    (on_violation (on_violation (on_violation st uid t1).2 uid t2).2 uid t3).2 uid t4
    (by rw [e3]; simp [updMap_self])
  exact ⟨by rw [e1], by rw [e2], by rw [e3], by rw [e4]⟩

/-- Witness for C1: a concrete run of the full escalation cycle. -/
theorem dealer_escalation_cycle_case :
    (on_violation cleanOffenses 7 100).1 = Outcome.firstOffense 259300 ∧
    (on_violation (on_violation cleanOffenses 7 100).2 7 200).1 =
      Outcome.heldDuringRestriction (some 259300) ∧
    (on_violation (on_violation (on_violation cleanOffenses 7 100).2 7 200).2 7 259300).1 =
      Outcome.kickDue 259300 ∧
    (on_violation (on_violation (on_violation (on_violation cleanOffenses 7 100).2 7 200).2
        7 259300).2 7 400000).1 = Outcome.firstOffense 659200 := by
  have h := dealer_escalation_cycle cleanOffenses 7 100 200 259300 400000
    (by decide) (by decide) (by decide)
  simpa [RESTRICTION_DURATION] using h

/-- The offense-state invariant of spec §3: a restriction entry exists iff
the offense count is at least 1. -/
def OffenseInv (st : OffenseState) : Prop :=
  ∀ uid, (st.restriction_until uid).isSome = true ↔ 1 ≤ st.user_offenses uid

/-- Claim C8: the invariant holds initially, is preserved by every
`on_violation` step, and the kick transition removes both the offense count
and the restriction entry of the kicked user entirely. -/
theorem offense_state_invariant :
    OffenseInv cleanOffenses ∧
    ∀ st uid now, OffenseInv st →
      OffenseInv (on_violation st uid now).2 ∧
      (∀ u, (on_violation st uid now).1 = Outcome.kickDue u →
        (on_violation st uid now).2.user_offenses uid = 0 ∧
        (on_violation st uid now).2.restriction_until uid = none) := by
  constructor
  · intro uid; simp [cleanOffenses]
  intro st uid now hinv
  by_cases h0 : st.user_offenses uid = 0
  · rw [on_violation_fresh st uid now h0]
    refine ⟨?_, ?_⟩
    · intro v
      by_cases hv : v = uid
      · subst hv; simp [updMap_self]
      · simp [updMap_other _ _ _ _ hv, hinv v]
    · intro u hu; simp at hu
  · have h1 : 1 ≤ st.user_offenses uid := Nat.one_le_iff_ne_zero.mpr h0
    have hsome : (st.restriction_until uid).isSome = true := (hinv uid).mpr h1
    obtain ⟨u, hu⟩ := Option.isSome_iff_exists.mp hsome
    by_cases hge : u ≤ now
    · rw [on_violation_kick st uid now u h0 hu hge]
      refine ⟨?_, ?_⟩
      · intro v
        by_cases hv : v = uid
        · subst hv; simp [updMap_self]
        · simp [updMap_other _ _ _ _ hv, hinv v]
      · intro u' _; simp [updMap_self]
    · rw [on_violation_held st uid now u h0 hu (not_le.mp hge)]
      refine ⟨?_, ?_⟩
      · intro v
        by_cases hv : v = uid
        · subst hv; simp [updMap_self, hu]
        · simp [updMap_other _ _ _ _ hv, hinv v]
      · intro u' hu'; simp at hu'

/-- Witness for C8: invariant preservation at a concrete state and step. -/
theorem offense_state_invariant_case : OffenseInv (on_violation cleanOffenses 3 5).2 :=
  (offense_state_invariant.2 cleanOffenses 3 5 offense_state_invariant.1).1

/-- Claim C10: when the incremented offense count is at least 2 but no
restriction entry exists, the pipeline takes the held branch (notice + log
with unknown end), never the kick branch, and the `Option`-guarded lookup
makes the step total. -/
theorem held_branch_missing_restriction (st : ModState) (e : MsgEvent)
    (hbot : e.is_bot = false) (htr : st.trusted e.user_id = false)
    (hadm : e.is_admin = false) (hscore : 3 ≤ ad_score (aggregate e))
    (h1 : 1 ≤ st.offense.user_offenses e.user_id)
    (hmiss : st.offense.restriction_until e.user_id = none) :
    (filter_message st e).1 = ModAction.dealerHeld none ∧
    (on_violation st.offense e.user_id e.now).1 = Outcome.heldDuringRestriction none ∧
    (∀ u, (on_violation st.offense e.user_id e.now).1 ≠ Outcome.kickDue u) := by
  have h0 : st.offense.user_offenses e.user_id ≠ 0 := by omega
  have hov := on_violation_held_missing st.offense e.user_id e.now h0 hmiss
  refine ⟨?_, by rw [hov], by intro u; rw [hov]; simp⟩
  simp only [filter_message, hbot, htr, hadm, Bool.and_false, Bool.false_and, if_false,
    Bool.false_eq_true, if_neg (Bool.false_ne_true)]
  rw [if_pos hscore, hov]

/-- Witness for C10: a concrete state with an offense count of 1 and no
restriction entry, hit by a scoring message. -/
theorem held_branch_missing_restriction_case :
    (filter_message
      ⟨fun _ => false, fun _ => [], fun _ => 0,
        ⟨fun u => if u = 7 then 1 else 0, fun _ => none⟩⟩
      ⟨7, false, false, "selling coke".toList, [], [], 50⟩).1 = ModAction.dealerHeld none :=
  (held_branch_missing_restriction
    ⟨fun _ => false, fun _ => [], fun _ => 0,
      ⟨fun u => if u = 7 then 1 else 0, fun _ => none⟩⟩
    ⟨7, false, false, "selling coke".toList, [], [], 50⟩
    rfl rfl rfl (by decide) (by decide) rfl).1

/-!  Claim theorems: warn ledger, trusted bypass, classifier purity. -/

/-- Claim C9: with `WARN_BEFORE_MUTE = 2`, from a count of 0 the first warn
returns 1 with no auto-mute, and the second returns 2, issues the auto-mute
and resets the count to 0. -/
theorem warn_threshold_cycle (warnings : Nat → Nat) (uid : Nat)
    (h0 : warnings uid = 0) :
    (warn_cmd warnings uid).1 = 1 ∧
    (warn_cmd warnings uid).2.1 = false ∧
    (warn_cmd warnings uid).2.2 uid = 1 ∧
    (warn_cmd (warn_cmd warnings uid).2.2 uid).1 = 2 ∧
    (warn_cmd (warn_cmd warnings uid).2.2 uid).2.1 = true ∧
    (warn_cmd (warn_cmd warnings uid).2.2 uid).2.2 uid = 0 := by
  have e1 : warn_cmd warnings uid = (1, false, updMap warnings uid 1) := by
    simp [warn_cmd, h0, WARN_BEFORE_MUTE]
  have h1 : (updMap warnings uid 1) uid = 1 := updMap_self _ _ _
  have e2 : warn_cmd (updMap warnings uid 1) uid =
      (2, true, updMap (updMap (updMap warnings uid 1) uid 2) uid 0) := by
    simp [warn_cmd, h1, WARN_BEFORE_MUTE]
  rw [e1]
  simp [e2, updMap_self]

/-- Witness for C9 at a concrete ledger. -/
theorem warn_threshold_cycle_case :
    (warn_cmd (fun _ => 0) 4).1 = 1 ∧
    (warn_cmd (fun _ => 0) 4).2.1 = false ∧
    (warn_cmd (fun _ => 0) 4).2.2 4 = 1 ∧
    (warn_cmd (warn_cmd (fun _ => 0) 4).2.2 4).1 = 2 ∧
    (warn_cmd (warn_cmd (fun _ => 0) 4).2.2 4).2.1 = true ∧
    (warn_cmd (warn_cmd (fun _ => 0) 4).2.2 4).2.2 4 = 0 :=
  warn_threshold_cycle (fun _ => 0) 4 rfl

/-- Claim C7: a trusted sender short-circuits the whole pipeline — the
message resolves to `allow` and every piece of per-user state (flood,
warn, offense, restriction) is left exactly as it was, whatever the
message's score or the sender's flood history. -/
theorem trusted_bypass_allow (st : ModState) (e : MsgEvent)
    (htr : st.trusted e.user_id = true) :
    filter_message st e = (ModAction.allow, st) := by
  cases hb : e.is_bot <;> simp [filter_message, hb, htr]

/-- Witness for C7: a trusted user posting a maximally suspicious message. -/
theorem trusted_bypass_allow_case :
    filter_message
      ⟨fun u => u = 5, fun _ => [0, 1, 2, 3], fun _ => 0, cleanOffenses⟩
      ⟨5, false, false, "selling bulk wa.me/x £10 per g btc 07911 123456".toList, [], [], 4⟩ =
    (ModAction.allow,
      ⟨fun u => u = 5, fun _ => [0, 1, 2, 3], fun _ => 0, cleanOffenses⟩) :=
  trusted_bypass_allow _ _ (by decide)

/-- Claim C6: the classifier is deterministic and side-effect-free: its
result does not depend on the module state, repeated invocations agree, and
an invocation leaves the state untouched. -/
theorem classify_deterministic_stateless :
    ∀ (st st2 : ModState) (text : List Char),
      (classify_call st text).1 = (classify_call st2 text).1 ∧
      (classify_call st text).2 = st ∧
      (classify_call (classify_call st text).2 text).1 = (classify_call st text).1 :=
  fun _ _ _ => ⟨rfl, rfl, rfl⟩

/-!  Claim theorems: flood tracker. -/

/-- The flood table after recording events at t = 0,1,2,3 for user 1. -/
def floodTimes4 : Nat → List Int :=
  (record_message (record_message (record_message (record_message
    (fun _ => []) 1 0).2 1 1).2 1 2).2 1 3).2

/-- The flood table after also recording the fifth event at t = 4. -/
def floodTimes5 : Nat → List Int := (record_message floodTimes4 1 4).2

/-- Counterexample for C2: after events at t = 0,1,2,3,4, recording the
sixth event at t = 10 returns 4, and the timestamp 2 is still present —
because eviction requires age strictly greater than `FLOOD_WINDOW`, the
event at t = 2 (exactly 8 seconds old) is not evicted, contradicting the
claim that t = 0, 1 and 2 are all evicted (which would give count 3). -/
theorem flood_eviction_boundary_cex :
    (record_message floodTimes5 1 10).1 = 4 ∧
    (2 : Int) ∈ (record_message floodTimes5 1 10).2 1 ∧
    (record_message floodTimes5 1 10).1 ≠ 3 := by
  decide

/-- Amended C2: recording five events at t = 0,1,2,3,4 returns 5 at t = 4,
and a sixth event at t = 10 returns 4, keeping exactly the events with
t ≥ 2 (t = 0 and t = 1 are evicted; t = 2, exactly `FLOOD_WINDOW` seconds
old, survives the strict `>` test). -/
theorem flood_eviction_window :
    (record_message floodTimes4 1 4).1 = 5 ∧
    (record_message floodTimes5 1 10).1 = 4 ∧
    (record_message floodTimes5 1 10).2 1 = [2, 3, 4, 10] ∧
    ∀ t ∈ (record_message floodTimes5 1 10).2 1, 2 ≤ t := by
  decide

end Modbot
